import Mathlib

/-!
Verification of the chunk-pruning (chunk-exclusion) engine of
`src/hypertable_restrict_info.c`.

The per-dimension restriction accumulators, the slice resolvers and the
top-level aggregation loop are translated directly from the C source.
Machine `int64` values are modelled as `Int` (the C code performs no
arithmetic on them, only comparisons, so no overflow is possible);
PostgreSQL `Datum`s for open dimensions are modelled as their internal
`int64` representation (the conversion `time_value_to_internal` is an
external collaborator).  PostgreSQL `List` becomes Lean `List`.

External collaborators that live outside the translated source
(`dimension_slice_scan_range_limit` of dimension_slice.c,
`chunk_find_all_oids` of chunk.c, and the hash partitioning function of
partitioning.c) are modelled from the spec, as noted on each definition.
-/

/-- B-tree strategy numbers used by the C code: `InvalidStrategy`,
`BTLessStrategyNumber`, `BTLessEqualStrategyNumber`,
`BTEqualStrategyNumber`, `BTGreaterEqualStrategyNumber`,
`BTGreaterStrategyNumber`. -/
inductive Strategy where
  | invalid : Strategy
  | lt : Strategy
  | le : Strategy
  | eq : Strategy
  | ge : Strategy
  | gt : Strategy
deriving DecidableEq

/-- `DimensionValues` of hypertable_restrict_info.c: the literal values of
one clause together with the ORed/ANDed flag.  The `type` Oid field is
dropped: it only feeds the external value-conversion collaborator, and
values here are already in internal representation. -/
structure DimensionValues where
  values : List Int
  use_or : Bool
deriving DecidableEq

/-- `DimensionRestrictInfoOpen`: the accumulated interval for one open
(range) dimension.  Bounds are uninitialized in C until the matching
strategy is set; they are initialized to 0 here and are never read while
the strategy is `invalid`, mirroring the C short-circuit reads. -/
structure DimensionRestrictInfoOpen where
  lower_bound : Int
  lower_strategy : Strategy
  upper_bound : Int
  upper_strategy : Strategy
deriving DecidableEq

/-- `dimension_restrict_info_open_create`: both strategies start Invalid. -/
def dimension_restrict_info_open_create : DimensionRestrictInfoOpen :=
  { lower_bound := 0, lower_strategy := .invalid
  , upper_bound := 0, upper_strategy := .invalid }

/-- `DimensionRestrictInfoClosed`: the accumulated candidate hash-partition
list for one closed (hash) dimension.  The `hashfn` field stands for the
dimension's partitioning function reached through
`dri->base.dimension->partitioning` in C (the function itself is the
external collaborator `partitioning_func_apply`). -/
structure DimensionRestrictInfoClosed where
  hashfn : Int → Int
  partitions : List Int
  strategy : Strategy

/-- `dimension_restrict_info_closed_create`: partitions NIL, strategy Invalid. -/
def dimension_restrict_info_closed_create (h : Int → Int) : DimensionRestrictInfoClosed :=
  { hashfn := h, partitions := [], strategy := .invalid }

/-- PostgreSQL `list_append_unique_int`: append unless already a member. -/
def list_append_unique_int (xs : List Int) (x : Int) : List Int :=
  if x ∈ xs then xs else xs ++ [x]

/-- PostgreSQL `list_intersection_int`: the members of the first list that
are also members of the second, in the first list's order. -/
def list_intersection_int (xs ys : List Int) : List Int :=
  xs.filter (fun x => x ∈ ys)

/-- The loop body of `dimension_restrict_info_open_add`, processing one
value of the clause. -/
def dimension_restrict_info_open_add_step (strategy : Strategy)
    (acc : DimensionRestrictInfoOpen × Bool) (value : Int) :
    DimensionRestrictInfoOpen × Bool :=
  match strategy with
  | .le | .lt =>
      if acc.1.upper_strategy = .invalid ∨ value < acc.1.upper_bound then
        ({ acc.1 with upper_strategy := strategy, upper_bound := value }, true)
      else acc
  | .ge | .gt =>
      if acc.1.lower_strategy = .invalid ∨ value > acc.1.lower_bound then
        ({ acc.1 with lower_strategy := strategy, lower_bound := value }, true)
      else acc
  | .eq =>
      ({ lower_bound := value, upper_bound := value
       , lower_strategy := .ge, upper_strategy := .le }, true)
  | .invalid => acc

/-- `dimension_restrict_info_open_add`: reject multi-value disjunctions,
otherwise fold every value into the interval; returns the new accumulator
together with the `restriction_added` flag. -/
def dimension_restrict_info_open_add (dri : DimensionRestrictInfoOpen)
    (strategy : Strategy) (dimValues : DimensionValues) :
    DimensionRestrictInfoOpen × Bool :=
  if dimValues.use_or ∧ dimValues.values.length > 1 then (dri, false)
  else dimValues.values.foldl (dimension_restrict_info_open_add_step strategy) (dri, false)

/-- `dimension_restrict_info_get_partitions`: map each value through the
dimension's partitioning function, deduplicating. -/
def dimension_restrict_info_get_partitions (dri : DimensionRestrictInfoClosed)
    (values : List Int) : List Int :=
  values.foldl (fun partitions v => list_append_unique_int partitions (dri.hashfn v)) []

/-- `dimension_restrict_info_closed_add`: only equality clauses apply; a
conjunctive clause hitting more than one partition is a contradiction
(explicit empty set); otherwise adopt or intersect. -/
def dimension_restrict_info_closed_add (dri : DimensionRestrictInfoClosed)
    (strategy : Strategy) (dimValues : DimensionValues) :
    DimensionRestrictInfoClosed × Bool :=
  if strategy ≠ .eq then (dri, false)
  else
    let partitions := dimension_restrict_info_get_partitions dri dimValues.values
    if partitions.length > 1 ∧ dimValues.use_or = false then
      ({ dri with strategy := strategy, partitions := [] }, true)
    else if dri.strategy = .invalid then
      ({ dri with partitions := partitions, strategy := strategy }, true)
    else if dri.partitions = [] then (dri, true)
    else ({ dri with partitions := list_intersection_int dri.partitions partitions }, true)

/-- A persisted dimension slice: a half-open interval `[range_start, range_end)`
over the dimension's internal value space (hash-partition numbers for closed
dimensions). -/
structure DimensionSlice where
  range_start : Int
  range_end : Int
deriving DecidableEq

/-- Modelled from the spec: the upper-bound half of the slice lookup
`dimension_slice_scan_range_limit` (dimension_slice.c, not under src/):
the slice's start is compared against the restriction's upper bound under
the given strategy; an Invalid strategy means unbounded. -/
def slice_matches_upper (strategy : Strategy) (upper : Int) (sl : DimensionSlice) : Bool :=
  match strategy with
  | .invalid => true
  | .lt => decide (sl.range_start < upper)
  | .le => decide (sl.range_start ≤ upper)
  | _ => false

/-- Modelled from the spec: the lower-bound half of the slice lookup
`dimension_slice_scan_range_limit`: the slice's end is compared against the
restriction's lower bound under the given strategy; Invalid means unbounded. -/
def slice_matches_lower (strategy : Strategy) (lower : Int) (sl : DimensionSlice) : Bool :=
  match strategy with
  | .invalid => true
  | .gt => decide (sl.range_end > lower)
  | .ge => decide (sl.range_end ≥ lower)
  | _ => false

/-- Modelled from the spec: `dimension_slice_scan_range_limit`
(dimension_slice.c, not under src/) returns every persisted slice of the
dimension whose interval overlaps the queried range: start under the upper
strategy/bound and end under the lower strategy/bound, unset (Invalid)
bounds treated as unbounded.  The dimension's persisted catalog of slices
is passed explicitly in place of the dimension id. -/
def dimension_slice_scan_range_limit (catalog : List DimensionSlice)
    (upper_strategy : Strategy) (upper : Int)
    (lower_strategy : Strategy) (lower : Int) : List DimensionSlice :=
  catalog.filter (fun sl =>
    slice_matches_upper upper_strategy upper sl && slice_matches_lower lower_strategy lower sl)

/-- `dimension_restrict_info_open_slices`: slices overlapping the
accumulated interval (`slice_end > lower_bound && slice_start < upper_bound`). -/
def dimension_restrict_info_open_slices (dri : DimensionRestrictInfoOpen)
    (catalog : List DimensionSlice) : List DimensionSlice :=
  dimension_slice_scan_range_limit catalog dri.upper_strategy dri.upper_bound
    dri.lower_strategy dri.lower_bound

/-- `dimension_vec_add_unique_slice`: add a slice to a dimension vector
unless already present. -/
def dimension_vec_add_unique_slice (vec : List DimensionSlice) (sl : DimensionSlice) :
    List DimensionSlice :=
  if sl ∈ vec then vec else vec ++ [sl]

/-- `dimension_restrict_info_closed_slices`: with an equality restriction,
union (deduplicated) of the slices matching each candidate partition
(`slice_end >= value && slice_start <= value`); otherwise all slices. -/
def dimension_restrict_info_closed_slices (dri : DimensionRestrictInfoClosed)
    (catalog : List DimensionSlice) : List DimensionSlice :=
  if dri.strategy = .eq then
    dri.partitions.foldl
      (fun dim_vec partition =>
        (dimension_slice_scan_range_limit catalog .le partition .ge partition).foldl
          dimension_vec_add_unique_slice dim_vec)
      []
  else
    dimension_slice_scan_range_limit catalog .invalid (-1) .invalid (-1)

/-- `DimensionRestrictInfo`: tagged variant over the dimension kind, as
dispatched by `dri->dimension->type` in C. -/
inductive DimensionRestrictInfo where
  | dopen : DimensionRestrictInfoOpen → DimensionRestrictInfo
  | dclosed : DimensionRestrictInfoClosed → DimensionRestrictInfo

/-- `dimension_restrict_info_add`: dispatch on the dimension kind. -/
def dimension_restrict_info_add (dri : DimensionRestrictInfo)
    (strategy : Strategy) (values : DimensionValues) :
    DimensionRestrictInfo × Bool :=
  match dri with
  | .dopen d =>
      let r := dimension_restrict_info_open_add d strategy values
      (.dopen r.1, r.2)
  | .dclosed d =>
      let r := dimension_restrict_info_closed_add d strategy values
      (.dclosed r.1, r.2)

/-- `dimension_restrict_info_slices`: dispatch on the dimension kind. -/
def dimension_restrict_info_slices (dri : DimensionRestrictInfo)
    (catalog : List DimensionSlice) : List DimensionSlice :=
  match dri with
  | .dopen d => dimension_restrict_info_open_slices d catalog
  | .dclosed d => dimension_restrict_info_closed_slices d catalog

/-- A chunk: its identifier and its slice assignment, one slice per
dimension in dimension order. -/
structure Chunk where
  oid : Int
  slices : List DimensionSlice
deriving DecidableEq

/-- Modelled from the spec: the membership test of `chunk_find_all_oids`
(chunk.c, not under src/): a chunk qualifies when its per-dimension slice
assignment is a member of the corresponding candidate slice set in every
dimension. -/
def chunk_matches_vecs : List DimensionSlice → List (List DimensionSlice) → Bool
  | [], [] => true
  | sl :: sls, vec :: vecs => decide (sl ∈ vec) && chunk_matches_vecs sls vecs
  | _, _ => false

/-- Modelled from the spec: `chunk_find_all_oids` (chunk.c, not under src/)
enumerates the identifiers of the chunks whose per-dimension slice
assignment is a member of the corresponding candidate set in every
dimension.  The universe of existing chunks is passed explicitly in place
of the hyperspace. -/
def chunk_find_all_oids (dimension_vecs : List (List DimensionSlice))
    (chunks : List Chunk) : List Int :=
  (chunks.filter (fun ch => chunk_matches_vecs ch.slices dimension_vecs)).map Chunk.oid

/-- The loop of `hypertable_restrict_info_get_chunk_oids`: resolve each
dimension's slices in order, short-circuiting to NIL as soon as one
dimension has no matching slices, then hand the accumulated per-dimension
vectors to the chunk lookup.  Each dimension's restriction is paired with
that dimension's persisted slice catalog. -/
def hypertable_restrict_info_get_chunk_oids_go :
    List (DimensionRestrictInfo × List DimensionSlice) →
    List (List DimensionSlice) → List Chunk → List Int
  | [], dimension_vecs, chunks => chunk_find_all_oids dimension_vecs chunks
  | (dri, catalog) :: rest, dimension_vecs, chunks =>
      let dv := dimension_restrict_info_slices dri catalog
      if dv = [] then []
      else hypertable_restrict_info_get_chunk_oids_go rest (dimension_vecs ++ [dv]) chunks

/-- `hypertable_restrict_info_get_chunk_oids`. -/
def hypertable_restrict_info_get_chunk_oids
    (hri : List (DimensionRestrictInfo × List DimensionSlice))
    (chunks : List Chunk) : List Int :=
  hypertable_restrict_info_get_chunk_oids_go hri [] chunks

/-- `dimension_values_create_from_array` combined with
`dimension_values_create`: iterate the array literal, dropping NULL
elements. -/
def dimension_values_create_from_array (elems : List (Option Int)) (use_or : Bool) :
    DimensionValues :=
  { values := elems.filterMap id, use_or := use_or }

/-!
## Semantic layer

The following definitions give the specification-side meaning of clauses,
rows, dimensions and chunks, against which the translated code is judged.
-/

/-- The kind of one partitioning dimension: open (range) with values taken
as the internal time representation, or closed (hash) with its
partitioning function. -/
inductive DimKind where
  | kopen : DimKind
  | kclosed : (Int → Int) → DimKind

/-- One restriction clause as produced by the clause classifier for a
dimension: the comparison strategy, the literal values and the ORed/ANDed
flag. -/
structure RestrictClause where
  strategy : Strategy
  dimvals : DimensionValues

/-- Truth of one comparison `x <cmp> v`.  The Invalid strategy carries no
information (such a clause is ignored by all accumulators). -/
def cmpHolds (strategy : Strategy) (x v : Int) : Prop :=
  match strategy with
  | .invalid => True
  | .lt => x < v
  | .le => x ≤ v
  | .eq => x = v
  | .ge => x ≥ v
  | .gt => x > v

instance (strategy : Strategy) (x v : Int) : Decidable (cmpHolds strategy x v) := by
  cases strategy <;> simp only [cmpHolds] <;> infer_instance

/-- A row value `x` satisfies a clause: disjunctively over the values when
ORed (`= ANY`), conjunctively when ANDed (`= ALL` or a plain binary
comparison). -/
def clauseHolds (c : RestrictClause) (x : Int) : Prop :=
  if c.dimvals.use_or then ∃ v ∈ c.dimvals.values, cmpHolds c.strategy x v
  else ∀ v ∈ c.dimvals.values, cmpHolds c.strategy x v

instance (c : RestrictClause) (x : Int) : Decidable (clauseHolds c x) := by
  unfold clauseHolds; infer_instance

/-- A slice contains a row value: directly for an open dimension, through
the partitioning function for a closed one. -/
def sliceContains (kind : DimKind) (sl : DimensionSlice) (x : Int) : Prop :=
  match kind with
  | .kopen => sl.range_start ≤ x ∧ x < sl.range_end
  | .kclosed h => sl.range_start ≤ h x ∧ h x < sl.range_end

instance (kind : DimKind) (sl : DimensionSlice) (x : Int) :
    Decidable (sliceContains kind sl x) := by
  cases kind <;> simp only [sliceContains] <;> infer_instance

/-- The guard that rules out the degenerate empty `ALL`-array clause on a
closed dimension: a conjunctive equality clause must carry at least one
value.  Trivial for open dimensions. -/
def closedValuesGuard (kind : DimKind) (c : RestrictClause) : Prop :=
  match kind with
  | .kopen => True
  | .kclosed _ => c.strategy = .eq → c.dimvals.use_or = false → c.dimvals.values ≠ []

instance (kind : DimKind) (c : RestrictClause) : Decidable (closedValuesGuard kind c) := by
  cases kind <;> simp only [closedValuesGuard] <;> infer_instance

/-- `dimension_restrict_info_create`: the freshly created accumulator for a
dimension of the given kind. -/
def dimension_restrict_info_create (kind : DimKind) : DimensionRestrictInfo :=
  match kind with
  | .kopen => .dopen dimension_restrict_info_open_create
  | .kclosed h => .dclosed (dimension_restrict_info_closed_create h)

/-- Ingest a list of classified clauses into a dimension's accumulator, in
order, as `hypertable_restrict_info_add` does clause by clause. -/
def ingestClauses (kind : DimKind) (clauses : List RestrictClause) : DimensionRestrictInfo :=
  clauses.foldl (fun dri c => (dimension_restrict_info_add dri c.strategy c.dimvals).1)
    (dimension_restrict_info_create kind)

/-- Everything about one dimension of a concrete scenario: its kind, the
classified clauses restricting it, its persisted slice catalog, the slice
of the chunk under scrutiny in this dimension, and the row value of the
witnessing row in this dimension. -/
structure DimSetup where
  kind : DimKind
  clauses : List RestrictClause
  catalog : List DimensionSlice
  chunkSlice : DimensionSlice
  rowVal : Int

/-- The restriction/catalog pair handed to the aggregation loop for one
dimension. -/
def DimSetup.pair (d : DimSetup) : DimensionRestrictInfo × List DimensionSlice :=
  (ingestClauses d.kind d.clauses, d.catalog)

/-- The accumulated interval of an open accumulator admits the row value
`x`: each set bound is respected under its strategy, and a set bound's
strategy is one the accumulator can actually hold (`<`/`<=` above,
`>`/`>=` below). -/
def openBoundsOk (s : DimensionRestrictInfoOpen) (x : Int) : Prop :=
  (match s.upper_strategy with
   | .invalid => True
   | .lt => x < s.upper_bound
   | .le => x ≤ s.upper_bound
   | _ => False) ∧
  (match s.lower_strategy with
   | .invalid => True
   | .gt => x > s.lower_bound
   | .ge => x ≥ s.lower_bound
   | _ => False)

/-- The closed accumulator admits partition number `p`: either no usable
restriction has been recorded, or `p` is among the candidates. -/
def closedOk (s : DimensionRestrictInfoClosed) (p : Int) : Prop :=
  s.strategy = .invalid ∨ (s.strategy = .eq ∧ p ∈ s.partitions)

/-- A sequence of add calls on an open-dimension accumulator, in order. -/
def dimension_restrict_info_open_add_seq (dri : DimensionRestrictInfoOpen)
    (calls : List (Strategy × DimensionValues)) : DimensionRestrictInfoOpen :=
  calls.foldl (fun s c => (dimension_restrict_info_open_add s c.1 c.2).1) dri

/-- The "interval never widens" relation between two open accumulator
states: a set upper bound stays set and does not increase, a set lower
bound stays set and does not decrease. -/
def openNotWider (old new : DimensionRestrictInfoOpen) : Prop :=
  (old.upper_strategy ≠ .invalid →
     new.upper_strategy ≠ .invalid ∧ new.upper_bound ≤ old.upper_bound) ∧
  (old.lower_strategy ≠ .invalid →
     new.lower_strategy ≠ .invalid ∧ old.lower_bound ≤ new.lower_bound)

instance (old new : DimensionRestrictInfoOpen) : Decidable (openNotWider old new) := by
  unfold openNotWider; infer_instance

/-- A sequence of equality-clause add calls on a closed-dimension
accumulator for a dimension with partitioning function `h`, starting from
the freshly created accumulator. -/
def dimension_restrict_info_closed_add_eq_seq (h : Int → Int)
    (cls : List DimensionValues) : DimensionRestrictInfoClosed :=
  cls.foldl (fun s dv => (dimension_restrict_info_closed_add s .eq dv).1)
    (dimension_restrict_info_closed_create h)

/-- The deduplicated partition numbers of a value list under a
partitioning function (what `dimension_restrict_info_get_partitions`
computes from its accumulator's dimension). -/
def hashPartitions (h : Int → Int) (values : List Int) : List Int :=
  values.foldl (fun partitions v => list_append_unique_int partitions (h v)) []

/-- The semantic contribution of one ingested equality clause to the
candidate partition set: a partition number is kept by the clause unless
the clause is the conjunctive multi-partition contradiction, and some
clause value maps to it. -/
def effMem (h : Int → Int) (dv : DimensionValues) (p : Int) : Prop :=
  ¬((hashPartitions h dv.values).length > 1 ∧ dv.use_or = false) ∧
    ∃ v ∈ dv.values, h v = p

/-!
## Helper lemmas
-/

lemma closed_slices_of_explicit_empty (dri : DimensionRestrictInfoClosed)
    (hs : dri.strategy = .eq) (hp : dri.partitions = [])
    (catalog : List DimensionSlice) :
    dimension_restrict_info_closed_slices dri catalog = [] := by
  simp [dimension_restrict_info_closed_slices, hs, hp]

lemma go_append_empty (pre : List (DimensionRestrictInfo × List DimensionSlice))
    (d : DimensionRestrictInfo × List DimensionSlice)
    (suf : List (DimensionRestrictInfo × List DimensionSlice))
    (acc : List (List DimensionSlice)) (chunks : List Chunk)
    (hd : dimension_restrict_info_slices d.1 d.2 = []) :
    hypertable_restrict_info_get_chunk_oids_go (pre ++ d :: suf) acc chunks = [] := by
  induction pre generalizing acc with
  | nil =>
      obtain ⟨dri, catalog⟩ := d
      simp only [List.nil_append, hypertable_restrict_info_get_chunk_oids_go]
      simp [hd]
  | cons p pre ih =>
      obtain ⟨pdri, pcatalog⟩ := p
      simp only [List.cons_append, hypertable_restrict_info_get_chunk_oids_go]
      by_cases hp : dimension_restrict_info_slices pdri pcatalog = []
      · simp [hp]
      · simp only [hp, if_false, List.append_eq]
        exact ih _

lemma get_partitions_eq_hashPartitions (dri : DimensionRestrictInfoClosed)
    (values : List Int) :
    dimension_restrict_info_get_partitions dri values = hashPartitions dri.hashfn values :=
  rfl

lemma mem_list_append_unique_int (xs : List Int) (x p : Int) :
    p ∈ list_append_unique_int xs x ↔ p ∈ xs ∨ p = x := by
  unfold list_append_unique_int
  split_ifs with h
  · constructor
    · exact fun hp => Or.inl hp
    · rintro (hp | rfl)
      · exact hp
      · exact h
  · simp [List.mem_append]

lemma mem_hashPartitions_aux (h : Int → Int) (values : List Int) :
    ∀ (acc : List Int) (p : Int),
      p ∈ values.foldl (fun partitions v => list_append_unique_int partitions (h v)) acc ↔
        p ∈ acc ∨ ∃ v ∈ values, h v = p := by
  induction values with
  | nil => simp
  | cons v vs ih =>
      intro acc p
      rw [List.foldl_cons, ih, mem_list_append_unique_int]
      constructor
      · rintro ((hp | rfl) | ⟨w, hw, rfl⟩)
        · exact Or.inl hp
        · exact Or.inr ⟨v, List.mem_cons_self v vs, rfl⟩
        · exact Or.inr ⟨w, List.mem_cons_of_mem v hw, rfl⟩
      · rintro (hp | ⟨w, hw, rfl⟩)
        · exact Or.inl (Or.inl hp)
        · rcases List.mem_cons.mp hw with rfl | hw
          · exact Or.inl (Or.inr rfl)
          · exact Or.inr ⟨w, hw, rfl⟩

lemma mem_hashPartitions (h : Int → Int) (values : List Int) (p : Int) :
    p ∈ hashPartitions h values ↔ ∃ v ∈ values, h v = p := by
  unfold hashPartitions
  rw [mem_hashPartitions_aux]
  simp

lemma mem_list_intersection_int (xs ys : List Int) (p : Int) :
    p ∈ list_intersection_int xs ys ↔ p ∈ xs ∧ p ∈ ys := by
  simp [list_intersection_int]

lemma closed_add_eq_def (s : DimensionRestrictInfoClosed) (dv : DimensionValues) :
    dimension_restrict_info_closed_add s .eq dv =
      (if (hashPartitions s.hashfn dv.values).length > 1 ∧ dv.use_or = false then
        ({ s with strategy := .eq, partitions := [] }, true)
      else if s.strategy = .invalid then
        ({ s with partitions := hashPartitions s.hashfn dv.values, strategy := .eq }, true)
      else if s.partitions = [] then (s, true)
      else ({ s with partitions :=
        list_intersection_int s.partitions (hashPartitions s.hashfn dv.values) }, true)) :=
  rfl

lemma closed_add_eq_mem (s : DimensionRestrictInfoClosed) (hs : s.strategy = .eq)
    (dv : DimensionValues) :
    (dimension_restrict_info_closed_add s .eq dv).1.strategy = .eq ∧
    (dimension_restrict_info_closed_add s .eq dv).1.hashfn = s.hashfn ∧
    ∀ p, p ∈ (dimension_restrict_info_closed_add s .eq dv).1.partitions ↔
      p ∈ s.partitions ∧ effMem s.hashfn dv p := by
  rw [closed_add_eq_def]
  split_ifs with h1 h2 h3
  · refine ⟨rfl, rfl, fun p => ?_⟩
    simp [effMem, h1]
  · exact absurd (hs.symm.trans h2) (by decide)
  · refine ⟨hs, rfl, fun p => ?_⟩
    simp [h3]
  · refine ⟨hs, rfl, fun p => ?_⟩
    simp only [mem_list_intersection_int, effMem]
    constructor
    · rintro ⟨hp, hq⟩
      exact ⟨hp, h1, (mem_hashPartitions _ _ _).mp hq⟩
    · rintro ⟨hp, _, hq⟩
      exact ⟨hp, (mem_hashPartitions _ _ _).mpr hq⟩

lemma closed_add_eq_mem_first (h : Int → Int) (dv : DimensionValues) :
    (dimension_restrict_info_closed_add (dimension_restrict_info_closed_create h)
      .eq dv).1.strategy = .eq ∧
    (dimension_restrict_info_closed_add (dimension_restrict_info_closed_create h)
      .eq dv).1.hashfn = h ∧
    ∀ p, p ∈ (dimension_restrict_info_closed_add (dimension_restrict_info_closed_create h)
      .eq dv).1.partitions ↔ effMem h dv p := by
  rw [closed_add_eq_def]
  simp only [dimension_restrict_info_closed_create]
  split_ifs with h1
  · refine ⟨rfl, rfl, fun p => ?_⟩
    simp [effMem, h1.1, h1.2]
  · refine ⟨rfl, rfl, fun p => ?_⟩
    simp only [effMem, mem_hashPartitions]
    exact ⟨fun hp => ⟨h1, hp⟩, fun hp => hp.2⟩

lemma closed_add_eq_fold (cls : List DimensionValues) :
    ∀ (s : DimensionRestrictInfoClosed), s.strategy = .eq →
      (cls.foldl (fun s dv => (dimension_restrict_info_closed_add s .eq dv).1) s).strategy
          = .eq ∧
      (cls.foldl (fun s dv => (dimension_restrict_info_closed_add s .eq dv).1) s).hashfn
          = s.hashfn ∧
      ∀ p, p ∈ (cls.foldl (fun s dv =>
            (dimension_restrict_info_closed_add s .eq dv).1) s).partitions ↔
        p ∈ s.partitions ∧ ∀ dv ∈ cls, effMem s.hashfn dv p := by
  induction cls with
  | nil => intro s hs; simp [hs]
  | cons dv cls ih =>
      intro s hs
      obtain ⟨h1, h2, h3⟩ := closed_add_eq_mem s hs dv
      obtain ⟨g1, g2, g3⟩ := ih _ h1
      rw [h2] at g2 g3
      refine ⟨g1, g2, fun p => ?_⟩
      rw [List.foldl_cons, g3 p, h3 p]
      simp only [List.forall_mem_cons]
      tauto

lemma closed_add_eq_seq_char (h : Int → Int) (dv : DimensionValues)
    (cls : List DimensionValues) :
    (dimension_restrict_info_closed_add_eq_seq h (dv :: cls)).strategy = .eq ∧
    ∀ p, p ∈ (dimension_restrict_info_closed_add_eq_seq h (dv :: cls)).partitions ↔
      ∀ d ∈ dv :: cls, effMem h d p := by
  unfold dimension_restrict_info_closed_add_eq_seq
  rw [List.foldl_cons]
  obtain ⟨f1, f2, f3⟩ := closed_add_eq_mem_first h dv
  obtain ⟨g1, g2, g3⟩ := closed_add_eq_fold cls _ f1
  rw [f2] at g3
  refine ⟨g1, fun p => ?_⟩
  rw [g3 p]
  simp only [List.forall_mem_cons]
  rw [f3 p]

lemma openBoundsOk_create (x : Int) : openBoundsOk dimension_restrict_info_open_create x :=
  ⟨trivial, trivial⟩

lemma open_add_step_boundsOk (strategy : Strategy) (x v : Int)
    (acc : DimensionRestrictInfoOpen × Bool)
    (hok : openBoundsOk acc.1 x) (hcmp : cmpHolds strategy x v) :
    openBoundsOk (dimension_restrict_info_open_add_step strategy acc v).1 x := by
  obtain ⟨hu, hl⟩ := hok
  cases strategy <;> simp only [dimension_restrict_info_open_add_step]
  case invalid => exact ⟨hu, hl⟩
  case eq => exact ⟨le_of_eq hcmp, ge_of_eq hcmp⟩
  case lt =>
    split_ifs with h
    · exact ⟨hcmp, hl⟩
    · exact ⟨hu, hl⟩
  case le =>
    split_ifs with h
    · exact ⟨hcmp, hl⟩
    · exact ⟨hu, hl⟩
  case gt =>
    split_ifs with h
    · exact ⟨hu, hcmp⟩
    · exact ⟨hu, hl⟩
  case ge =>
    split_ifs with h
    · exact ⟨hu, hcmp⟩
    · exact ⟨hu, hl⟩

lemma open_add_fold_boundsOk (strategy : Strategy) (x : Int) :
    ∀ (vs : List Int), (∀ v ∈ vs, cmpHolds strategy x v) →
      ∀ acc : DimensionRestrictInfoOpen × Bool, openBoundsOk acc.1 x →
        openBoundsOk
          ((vs.foldl (dimension_restrict_info_open_add_step strategy) acc)).1 x := by
  intro vs
  induction vs with
  | nil => intro _ acc h; exact h
  | cons v vs ih =>
      intro hvs acc h
      rw [List.foldl_cons]
      exact ih (fun w hw => hvs w (List.mem_cons_of_mem v hw)) _
        (open_add_step_boundsOk strategy x v acc h (hvs v (List.mem_cons_self v vs)))

lemma length_le_one_mem_eq {α : Type} {l : List α} (h : l.length ≤ 1)
    {a b : α} (ha : a ∈ l) (hb : b ∈ l) : a = b := by
  cases l with
  | nil => cases ha
  | cons x xs =>
      cases xs with
      | nil =>
          rw [List.mem_singleton] at ha hb
          rw [ha, hb]
      | cons y ys => simp at h

lemma open_add_boundsOk (s : DimensionRestrictInfoOpen) (x : Int) (c : RestrictClause)
    (hok : openBoundsOk s x) (hc : clauseHolds c x) :
    openBoundsOk (dimension_restrict_info_open_add s c.strategy c.dimvals).1 x := by
  unfold dimension_restrict_info_open_add
  split_ifs with h
  · exact hok
  · refine open_add_fold_boundsOk c.strategy x _ ?_ (s, false) hok
    by_cases ho : c.dimvals.use_or = true
    · have hlen : c.dimvals.values.length ≤ 1 := by
        by_contra hlen
        exact h ⟨ho, lt_of_not_le hlen⟩
      simp only [clauseHolds, ho, if_true] at hc
      obtain ⟨v, hv, hcv⟩ := hc
      intro w hw
      rw [length_le_one_mem_eq hlen hw hv]
      exact hcv
    · have ho2 : c.dimvals.use_or = false := by simpa using ho
      simp only [clauseHolds, ho2, Bool.false_eq_true, if_false] at hc
      exact hc

lemma open_slices_sound (s : DimensionRestrictInfoOpen) (x : Int)
    (hok : openBoundsOk s x) (sl : DimensionSlice)
    (hs1 : sl.range_start ≤ x) (hs2 : x < sl.range_end)
    (catalog : List DimensionSlice) (hcat : sl ∈ catalog) :
    sl ∈ dimension_restrict_info_open_slices s catalog := by
  unfold dimension_restrict_info_open_slices dimension_slice_scan_range_limit
  rw [List.mem_filter]
  refine ⟨hcat, ?_⟩
  rw [Bool.and_eq_true]
  obtain ⟨hu, hl⟩ := hok
  constructor
  · rcases hstrat : s.upper_strategy with _ | _ | _ | _ | _ | _ <;> rw [hstrat] at hu <;>
      simp only [slice_matches_upper]
    · exact decide_eq_true (lt_of_le_of_lt hs1 hu)
    · exact decide_eq_true (le_trans hs1 hu)
    · exact hu.elim
    · exact hu.elim
    · exact hu.elim
  · rcases hstrat : s.lower_strategy with _ | _ | _ | _ | _ | _ <;> rw [hstrat] at hl <;>
      simp only [slice_matches_lower]
    · exact hl.elim
    · exact hl.elim
    · exact hl.elim
    · exact decide_eq_true (le_of_lt (lt_of_le_of_lt hl hs2))
    · exact decide_eq_true (lt_trans hl hs2)

lemma hashPartitions_fold_singleton (f : Int → Int) (q : Int) :
    ∀ (vs : List Int), (∀ v ∈ vs, f v = q) →
      vs.foldl (fun partitions v => list_append_unique_int partitions (f v)) [q] = [q] := by
  intro vs
  induction vs with
  | nil => intro _; rfl
  | cons v vs ih =>
      intro hvs
      rw [List.foldl_cons]
      have hv : list_append_unique_int [q] (f v) = [q] := by
        rw [hvs v (List.mem_cons_self v vs)]
        simp [list_append_unique_int]
      rw [hv]
      exact ih (fun w hw => hvs w (List.mem_cons_of_mem v hw))

lemma hashPartitions_const (f : Int → Int) (q : Int) (vs : List Int)
    (hvs : ∀ v ∈ vs, f v = q) (hne : vs ≠ []) :
    hashPartitions f vs = [q] := by
  cases vs with
  | nil => exact absurd rfl hne
  | cons v vs =>
      unfold hashPartitions
      rw [List.foldl_cons]
      have hv : list_append_unique_int [] (f v) = [q] := by
        rw [hvs v (List.mem_cons_self v vs)]
        simp [list_append_unique_int]
      rw [hv]
      exact hashPartitions_fold_singleton f q vs (fun w hw => hvs w (List.mem_cons_of_mem v hw))

lemma closed_clause_value_hit (s : DimensionRestrictInfoClosed) (x : Int)
    (c : RestrictClause) (hst : c.strategy = .eq) (hc : clauseHolds c x)
    (hguard : c.strategy = .eq → c.dimvals.use_or = false → c.dimvals.values ≠ []) :
    ∃ v ∈ c.dimvals.values, s.hashfn v = s.hashfn x := by
  by_cases ho : c.dimvals.use_or = true
  · simp only [clauseHolds, ho, if_true] at hc
    obtain ⟨v, hv, hcv⟩ := hc
    rw [hst] at hcv
    have hxv : x = v := hcv
    exact ⟨v, hv, by rw [← hxv]⟩
  · have ho2 : c.dimvals.use_or = false := by simpa using ho
    simp only [clauseHolds, ho2, Bool.false_eq_true, if_false] at hc
    obtain ⟨w, hw⟩ := List.exists_mem_of_ne_nil c.dimvals.values (hguard hst ho2)
    have hcw := hc w hw
    rw [hst] at hcw
    have hxw : x = w := hcw
    exact ⟨w, hw, by rw [← hxw]⟩

lemma closed_add_closedOk (s : DimensionRestrictInfoClosed) (x : Int) (c : RestrictClause)
    (hok : closedOk s (s.hashfn x)) (hc : clauseHolds c x)
    (hguard : c.strategy = .eq → c.dimvals.use_or = false → c.dimvals.values ≠ []) :
    closedOk (dimension_restrict_info_closed_add s c.strategy c.dimvals).1 (s.hashfn x) ∧
    (dimension_restrict_info_closed_add s c.strategy c.dimvals).1.hashfn = s.hashfn := by
  by_cases hst : c.strategy = .eq
  · rw [hst]
    rw [closed_add_eq_def]
    have hex : ∃ v ∈ c.dimvals.values, s.hashfn v = s.hashfn x :=
      closed_clause_value_hit s x c hst hc hguard
    split_ifs with h1 h2 h3
    · -- conjunctive multi-partition contradiction: impossible when the row
      -- satisfies the clause and the value list is nonempty
      exfalso
      have ho2 : c.dimvals.use_or = false := h1.2
      simp only [clauseHolds, ho2, Bool.false_eq_true, if_false] at hc
      have hconst : ∀ v ∈ c.dimvals.values, s.hashfn v = s.hashfn x := by
        intro v hv
        have hcv := hc v hv
        rw [hst] at hcv
        have hxv : x = v := hcv
        rw [← hxv]
      have hone : hashPartitions s.hashfn c.dimvals.values = [s.hashfn x] :=
        hashPartitions_const s.hashfn (s.hashfn x) c.dimvals.values hconst
          (hguard hst ho2)
      rw [hone] at h1
      simp at h1
    · exact ⟨Or.inr ⟨rfl, (mem_hashPartitions _ _ _).mpr hex⟩, rfl⟩
    · exact ⟨hok, rfl⟩
    · rcases hok with hinv | ⟨heq, hmem⟩
      · exact absurd hinv h2
      · exact ⟨Or.inr ⟨heq, (mem_list_intersection_int _ _ _).mpr
          ⟨hmem, (mem_hashPartitions _ _ _).mpr hex⟩⟩, rfl⟩
  · have : dimension_restrict_info_closed_add s c.strategy c.dimvals = (s, false) := by
      simp [dimension_restrict_info_closed_add, hst]
    rw [this]
    exact ⟨hok, rfl⟩

lemma mem_add_unique_of_mem (vec : List DimensionSlice) (t sl : DimensionSlice)
    (h : sl ∈ vec) : sl ∈ dimension_vec_add_unique_slice vec t := by
  unfold dimension_vec_add_unique_slice
  split_ifs
  · exact h
  · exact List.mem_append_left _ h

lemma foldl_add_unique_preserve (tmp : List DimensionSlice) :
    ∀ (vec : List DimensionSlice) (sl : DimensionSlice), sl ∈ vec →
      sl ∈ tmp.foldl dimension_vec_add_unique_slice vec := by
  induction tmp with
  | nil => intro _ _ h; exact h
  | cons t ts ih =>
      intro vec sl h
      rw [List.foldl_cons]
      exact ih _ sl (mem_add_unique_of_mem vec t sl h)

lemma foldl_add_unique_insert (tmp : List DimensionSlice) :
    ∀ (vec : List DimensionSlice) (sl : DimensionSlice), sl ∈ tmp →
      sl ∈ tmp.foldl dimension_vec_add_unique_slice vec := by
  induction tmp with
  | nil => intro _ _ h; cases h
  | cons t ts ih =>
      intro vec sl h
      rw [List.foldl_cons]
      rcases List.mem_cons.mp h with rfl | h
      · refine foldl_add_unique_preserve ts _ sl ?_
        unfold dimension_vec_add_unique_slice
        split_ifs with hm
        · exact hm
        · exact List.mem_append_right _ (List.mem_singleton.mpr rfl)
      · exact ih _ sl h

lemma closed_outer_fold_preserve (catalog : List DimensionSlice)
    (parts : List Int) :
    ∀ (vec : List DimensionSlice) (sl : DimensionSlice), sl ∈ vec →
      sl ∈ parts.foldl (fun dim_vec partition =>
        (dimension_slice_scan_range_limit catalog .le partition .ge partition).foldl
          dimension_vec_add_unique_slice dim_vec) vec := by
  induction parts with
  | nil => intro _ _ h; exact h
  | cons q qs ih =>
      intro vec sl h
      rw [List.foldl_cons]
      exact ih _ sl (foldl_add_unique_preserve _ _ sl h)

lemma closed_outer_fold_mem (catalog : List DimensionSlice) (sl : DimensionSlice) (p : Int)
    (hscan : sl ∈ dimension_slice_scan_range_limit catalog .le p .ge p) :
    ∀ (parts : List Int), p ∈ parts → ∀ (vec : List DimensionSlice),
      sl ∈ parts.foldl (fun dim_vec partition =>
        (dimension_slice_scan_range_limit catalog .le partition .ge partition).foldl
          dimension_vec_add_unique_slice dim_vec) vec := by
  intro parts
  induction parts with
  | nil => intro h; cases h
  | cons q qs ih =>
      intro hp vec
      rw [List.foldl_cons]
      rcases List.mem_cons.mp hp with rfl | hp
      · exact closed_outer_fold_preserve catalog qs _ sl
          (foldl_add_unique_insert _ _ sl hscan)
      · exact ih hp _

lemma closed_slices_sound (s : DimensionRestrictInfoClosed) (p : Int)
    (hok : closedOk s p) (sl : DimensionSlice)
    (hs1 : sl.range_start ≤ p) (hs2 : p < sl.range_end)
    (catalog : List DimensionSlice) (hcat : sl ∈ catalog) :
    sl ∈ dimension_restrict_info_closed_slices s catalog := by
  rcases hok with hinv | ⟨heq, hmem⟩
  · unfold dimension_restrict_info_closed_slices
    rw [if_neg (by rw [hinv]; decide)]
    unfold dimension_slice_scan_range_limit
    rw [List.mem_filter]
    exact ⟨hcat, by simp [slice_matches_upper, slice_matches_lower]⟩
  · unfold dimension_restrict_info_closed_slices
    rw [if_pos heq]
    have hscan : sl ∈ dimension_slice_scan_range_limit catalog .le p .ge p := by
      unfold dimension_slice_scan_range_limit
      rw [List.mem_filter]
      refine ⟨hcat, ?_⟩
      rw [Bool.and_eq_true]
      exact ⟨decide_eq_true hs1, decide_eq_true (le_of_lt hs2)⟩
    exact closed_outer_fold_mem catalog sl p hscan s.partitions hmem []

lemma openNotWider_refl (s : DimensionRestrictInfoOpen) : openNotWider s s :=
  ⟨fun h => ⟨h, le_refl _⟩, fun h => ⟨h, le_refl _⟩⟩

lemma openNotWider_trans {a b c : DimensionRestrictInfoOpen}
    (hab : openNotWider a b) (hbc : openNotWider b c) : openNotWider a c := by
  refine ⟨fun h => ?_, fun h => ?_⟩
  · obtain ⟨h1, h2⟩ := hab.1 h
    obtain ⟨h3, h4⟩ := hbc.1 h1
    exact ⟨h3, le_trans h4 h2⟩
  · obtain ⟨h1, h2⟩ := hab.2 h
    obtain ⟨h3, h4⟩ := hbc.2 h1
    exact ⟨h3, le_trans h2 h4⟩

lemma open_add_step_notWider (strategy : Strategy) (hne : strategy ≠ .eq)
    (acc : DimensionRestrictInfoOpen × Bool) (value : Int) :
    openNotWider acc.1 (dimension_restrict_info_open_add_step strategy acc value).1 := by
  cases strategy <;> simp only [dimension_restrict_info_open_add_step]
  case eq => exact absurd rfl hne
  case invalid => exact openNotWider_refl _
  all_goals
    split_ifs with h
    · first
      | exact ⟨fun hu => by
          rcases h with h | h
          · exact absurd h hu
          · exact ⟨by simp, le_of_lt h⟩,
          fun hl => ⟨hl, le_refl _⟩⟩
      | exact ⟨fun hu => ⟨hu, le_refl _⟩,
          fun hl => by
            rcases h with h | h
            · exact absurd h hl
            · exact ⟨by simp, le_of_lt h⟩⟩
    · exact openNotWider_refl _

lemma open_add_notWider (dri : DimensionRestrictInfoOpen) (strategy : Strategy)
    (hne : strategy ≠ .eq) (dimValues : DimensionValues) :
    openNotWider dri (dimension_restrict_info_open_add dri strategy dimValues).1 := by
  unfold dimension_restrict_info_open_add
  split_ifs with h
  · exact openNotWider_refl _
  · clear h
    suffices hgen : ∀ (vs : List Int) (acc : DimensionRestrictInfoOpen × Bool),
        openNotWider acc.1
          (vs.foldl (dimension_restrict_info_open_add_step strategy) acc).1 by
      exact hgen dimValues.values (dri, false)
    intro vs
    induction vs with
    | nil => intro acc; exact openNotWider_refl _
    | cons v vs ih =>
        intro acc
        exact openNotWider_trans (open_add_step_notWider strategy hne acc v) (ih _)

lemma ingest_open (clauses : List RestrictClause) :
    ∀ s : DimensionRestrictInfoOpen,
      clauses.foldl (fun dri c => (dimension_restrict_info_add dri c.strategy c.dimvals).1)
        (.dopen s) =
      .dopen (clauses.foldl
        (fun t c => (dimension_restrict_info_open_add t c.strategy c.dimvals).1) s) := by
  induction clauses with
  | nil => intro s; rfl
  | cons c cs ih =>
      intro s
      rw [List.foldl_cons, List.foldl_cons]
      exact ih _

lemma ingest_closed (clauses : List RestrictClause) :
    ∀ s : DimensionRestrictInfoClosed,
      clauses.foldl (fun dri c => (dimension_restrict_info_add dri c.strategy c.dimvals).1)
        (.dclosed s) =
      .dclosed (clauses.foldl
        (fun t c => (dimension_restrict_info_closed_add t c.strategy c.dimvals).1) s) := by
  induction clauses with
  | nil => intro s; rfl
  | cons c cs ih =>
      intro s
      rw [List.foldl_cons, List.foldl_cons]
      exact ih _

lemma open_clause_fold_boundsOk (x : Int) :
    ∀ (clauses : List RestrictClause), (∀ c ∈ clauses, clauseHolds c x) →
      ∀ s : DimensionRestrictInfoOpen, openBoundsOk s x →
        openBoundsOk (clauses.foldl
          (fun t c => (dimension_restrict_info_open_add t c.strategy c.dimvals).1) s) x := by
  intro clauses
  induction clauses with
  | nil => intro _ s h; exact h
  | cons c cs ih =>
      intro hc s h
      rw [List.foldl_cons]
      exact ih (fun d hd => hc d (List.mem_cons_of_mem c hd)) _
        (open_add_boundsOk s x c h (hc c (List.mem_cons_self c cs)))

lemma closed_clause_fold_ok (x : Int) :
    ∀ (clauses : List RestrictClause),
      (∀ c ∈ clauses, clauseHolds c x) →
      (∀ c ∈ clauses, c.strategy = .eq → c.dimvals.use_or = false →
        c.dimvals.values ≠ []) →
      ∀ s : DimensionRestrictInfoClosed, closedOk s (s.hashfn x) →
        closedOk (clauses.foldl
            (fun t c => (dimension_restrict_info_closed_add t c.strategy c.dimvals).1) s)
          (s.hashfn x) ∧
        (clauses.foldl
            (fun t c => (dimension_restrict_info_closed_add t c.strategy c.dimvals).1)
            s).hashfn = s.hashfn := by
  intro clauses
  induction clauses with
  | nil => intro _ _ s h; exact ⟨h, rfl⟩
  | cons c cs ih =>
      intro hc hg s h
      rw [List.foldl_cons]
      obtain ⟨h1, h2⟩ := closed_add_closedOk s x c h (hc c (List.mem_cons_self c cs))
        (hg c (List.mem_cons_self c cs))
      obtain ⟨g1, g2⟩ := ih (fun d hd => hc d (List.mem_cons_of_mem c hd))
        (fun d hd => hg d (List.mem_cons_of_mem c hd)) _ (by rw [h2]; exact h1)
      rw [h2] at g1 g2
      exact ⟨g1, g2⟩

lemma go_total :
    ∀ (pairs : List (DimensionRestrictInfo × List DimensionSlice)),
      (∀ pr ∈ pairs, dimension_restrict_info_slices pr.1 pr.2 ≠ []) →
      ∀ acc chunks,
        hypertable_restrict_info_get_chunk_oids_go pairs acc chunks =
          chunk_find_all_oids
            (acc ++ pairs.map (fun pr => dimension_restrict_info_slices pr.1 pr.2))
            chunks := by
  intro pairs
  induction pairs with
  | nil =>
      intro _ acc chunks
      simp [hypertable_restrict_info_get_chunk_oids_go]
  | cons pr prs ih =>
      intro hne acc chunks
      obtain ⟨dri, catalog⟩ := pr
      have hd : dimension_restrict_info_slices dri catalog ≠ [] :=
        hne _ (List.mem_cons_self _ _)
      simp only [hypertable_restrict_info_get_chunk_oids_go, hd, if_false]
      rw [ih (fun q hq => hne q (List.mem_cons_of_mem _ hq)) _ chunks]
      simp

lemma chunk_matches_of_forall (f : DimSetup → List DimensionSlice) :
    ∀ (setup : List DimSetup), (∀ d ∈ setup, d.chunkSlice ∈ f d) →
      chunk_matches_vecs (setup.map (fun d => d.chunkSlice)) (setup.map f) = true := by
  intro setup
  induction setup with
  | nil => intro _; rfl
  | cons d ds ih =>
      intro h
      simp only [List.map_cons, chunk_matches_vecs, Bool.and_eq_true]
      exact ⟨decide_eq_true (h d (List.mem_cons_self d ds)),
        ih (fun e he => h e (List.mem_cons_of_mem d he))⟩

lemma dimension_sound (d : DimSetup)
    (hcat : d.chunkSlice ∈ d.catalog)
    (hcontain : sliceContains d.kind d.chunkSlice d.rowVal)
    (hclauses : ∀ c ∈ d.clauses, clauseHolds c d.rowVal)
    (hguard : ∀ c ∈ d.clauses, closedValuesGuard d.kind c) :
    d.chunkSlice ∈
      dimension_restrict_info_slices (ingestClauses d.kind d.clauses) d.catalog := by
  obtain ⟨kind, clauses, catalog, chunkSlice, rowVal⟩ := d
  cases kind with
  | kopen =>
      unfold ingestClauses dimension_restrict_info_create
      rw [ingest_open]
      show chunkSlice ∈ dimension_restrict_info_open_slices _ catalog
      have hok := open_clause_fold_boundsOk rowVal clauses hclauses
        dimension_restrict_info_open_create (openBoundsOk_create rowVal)
      exact open_slices_sound _ rowVal hok chunkSlice hcontain.1 hcontain.2 catalog hcat
  | kclosed h =>
      unfold ingestClauses dimension_restrict_info_create
      rw [ingest_closed]
      show chunkSlice ∈ dimension_restrict_info_closed_slices _ catalog
      have hinit : closedOk (dimension_restrict_info_closed_create h)
          ((dimension_restrict_info_closed_create h).hashfn rowVal) := Or.inl rfl
      have hguard2 : ∀ c ∈ clauses, c.strategy = .eq → c.dimvals.use_or = false →
          c.dimvals.values ≠ [] := fun c hc => hguard c hc
      obtain ⟨hok, hh⟩ := closed_clause_fold_ok rowVal clauses hclauses hguard2
        (dimension_restrict_info_closed_create h) hinit
      exact closed_slices_sound _ (h rowVal) hok chunkSlice hcontain.1 hcontain.2
        catalog hcat

/-!
## Claims
-/

/-- C6: calling add on an open-dimension accumulator with the equality
strategy and a single value `v` sets lower bound = upper bound = `v` with
lower strategy `>=` and upper strategy `<=`, overwriting any previously
accumulated bounds unconditionally, and reports "restriction added". -/
theorem open_add_eq_overwrites_bounds (dri : DimensionRestrictInfoOpen)
    (v : Int) (use_or : Bool) :
    dimension_restrict_info_open_add dri .eq { values := [v], use_or := use_or } =
      ({ lower_bound := v, lower_strategy := .ge
       , upper_bound := v, upper_strategy := .le }, true) := by
  simp [dimension_restrict_info_open_add, dimension_restrict_info_open_add_step]

/-- C8: calling add on an open-dimension accumulator with `combine_as_or`
true and more than one value is a no-op: it returns "not added" and leaves
the accumulator exactly as it was. -/
theorem open_add_or_multi_values_noop (dri : DimensionRestrictInfoOpen)
    (strategy : Strategy) (dimValues : DimensionValues)
    (hor : dimValues.use_or = true) (hlen : dimValues.values.length > 1) :
    dimension_restrict_info_open_add dri strategy dimValues = (dri, false) := by
  simp [dimension_restrict_info_open_add, hor, hlen]

/-- C8 witness. -/
theorem open_add_or_multi_values_noop_witness :
    dimension_restrict_info_open_add dimension_restrict_info_open_create .lt
      { values := [1, 2], use_or := true } =
      (dimension_restrict_info_open_create, false) :=
  open_add_or_multi_values_noop dimension_restrict_info_open_create .lt
    { values := [1, 2], use_or := true } rfl (by decide)

/-- C9: calling add on a closed-dimension accumulator with any strategy
other than equality returns "not added" and leaves the accumulator's
partition list and strategy unchanged, from any state. -/
theorem closed_add_non_eq_noop (dri : DimensionRestrictInfoClosed)
    (strategy : Strategy) (dimValues : DimensionValues)
    (hne : strategy ≠ .eq) :
    dimension_restrict_info_closed_add dri strategy dimValues = (dri, false) := by
  simp [dimension_restrict_info_closed_add, hne]

/-- C9 witness. -/
theorem closed_add_non_eq_noop_witness :
    dimension_restrict_info_closed_add
      { hashfn := fun v => v % 4, partitions := [2], strategy := .eq } .lt
      { values := [1, 2], use_or := false } =
      ({ hashfn := fun v => v % 4, partitions := [2], strategy := .eq }, false) :=
  closed_add_non_eq_noop _ .lt { values := [1, 2], use_or := false } (by decide)

/-- C2: if slice resolution for any dimension yields an empty candidate
slice set, `hypertable_restrict_info_get_chunk_oids` returns the empty
chunk set, whatever the restrictions, catalogs and resolution results of
the remaining dimensions are (so those resolvers need not be consulted). -/
theorem empty_dimension_short_circuits
    (pre : List (DimensionRestrictInfo × List DimensionSlice))
    (d : DimensionRestrictInfo × List DimensionSlice)
    (suf : List (DimensionRestrictInfo × List DimensionSlice))
    (chunks : List Chunk)
    (hd : dimension_restrict_info_slices d.1 d.2 = []) :
    hypertable_restrict_info_get_chunk_oids (pre ++ d :: suf) chunks = [] :=
  go_append_empty pre d suf [] chunks hd

/-- C2 witness. -/
theorem empty_dimension_short_circuits_witness :
    hypertable_restrict_info_get_chunk_oids
      ([(.dopen dimension_restrict_info_open_create, [⟨0, 10⟩])] ++
        (.dclosed { hashfn := fun v => v, partitions := [], strategy := .eq }, [⟨0, 1⟩]) ::
          [(.dopen dimension_restrict_info_open_create, [⟨5, 6⟩])])
      [⟨1, [⟨0, 10⟩, ⟨0, 1⟩, ⟨5, 6⟩]⟩] = [] :=
  empty_dimension_short_circuits _ _ _ _ rfl

/-- C3: on a closed-dimension accumulator in any state, add with the
equality strategy, `combine_as_or` false and values hitting more than one
distinct partition number sets the accumulator to the explicitly-empty
state (equality strategy, empty partition list), reports "restriction
added", and the whole query then yields zero candidate chunks regardless
of the other dimensions. -/
theorem closed_add_conjunctive_contradiction (dri : DimensionRestrictInfoClosed)
    (vs : List Int)
    (hmulti : (dimension_restrict_info_get_partitions dri vs).length > 1) :
    dimension_restrict_info_closed_add dri .eq { values := vs, use_or := false } =
      ({ dri with strategy := .eq, partitions := [] }, true) ∧
    ∀ pre suf catalog chunks,
      hypertable_restrict_info_get_chunk_oids
        (pre ++
          (.dclosed (dimension_restrict_info_closed_add dri .eq
            { values := vs, use_or := false }).1, catalog) :: suf) chunks = [] := by
  have hadd : dimension_restrict_info_closed_add dri .eq { values := vs, use_or := false } =
      ({ dri with strategy := .eq, partitions := [] }, true) := by
    simp [dimension_restrict_info_closed_add, hmulti]
  refine ⟨hadd, ?_⟩
  intro pre suf catalog chunks
  refine go_append_empty pre _ suf [] chunks ?_
  rw [hadd]
  exact closed_slices_of_explicit_empty _ rfl rfl catalog

/-- C3 witness. -/
theorem closed_add_conjunctive_contradiction_witness :
    dimension_restrict_info_closed_add
        { hashfn := fun v => v, partitions := [], strategy := .invalid } .eq
        { values := [2, 3], use_or := false } =
      ({ hashfn := fun v => v, partitions := [], strategy := .eq }, true) ∧
    hypertable_restrict_info_get_chunk_oids
      ([] ++
        (.dclosed (dimension_restrict_info_closed_add
          { hashfn := fun v => v, partitions := [], strategy := .invalid } .eq
          { values := [2, 3], use_or := false }).1, [⟨2, 3⟩]) :: []) [⟨1, [⟨2, 3⟩]⟩] = [] :=
  ⟨(closed_add_conjunctive_contradiction _ [2, 3] (by decide)).1,
   (closed_add_conjunctive_contradiction _ [2, 3] (by decide)).2 [] [] [⟨2, 3⟩] [⟨1, [⟨2, 3⟩]⟩]⟩

/-- C4: once a closed-dimension accumulator is explicitly empty (equality
strategy, empty partition list), every further add call leaves it
explicitly empty, and its slice resolver returns the empty slice set. -/
theorem closed_explicit_empty_absorbing (dri : DimensionRestrictInfoClosed)
    (hs : dri.strategy = .eq) (hp : dri.partitions = []) :
    (∀ strategy dimValues,
        (dimension_restrict_info_closed_add dri strategy dimValues).1.strategy = .eq ∧
        (dimension_restrict_info_closed_add dri strategy dimValues).1.partitions = []) ∧
    ∀ catalog, dimension_restrict_info_closed_slices dri catalog = [] := by
  constructor
  · intro strategy dimValues
    unfold dimension_restrict_info_closed_add
    split_ifs with h1 h2 <;> simp_all
    split_ifs <;> simp_all
  · intro catalog
    exact closed_slices_of_explicit_empty dri hs hp catalog

/-- C4 witness. -/
theorem closed_explicit_empty_absorbing_witness :
    ((dimension_restrict_info_closed_add
        { hashfn := fun v => v % 4, partitions := [], strategy := .eq } .eq
        { values := [1], use_or := false }).1.strategy = .eq ∧
     (dimension_restrict_info_closed_add
        { hashfn := fun v => v % 4, partitions := [], strategy := .eq } .eq
        { values := [1], use_or := false }).1.partitions = []) ∧
    dimension_restrict_info_closed_slices
      { hashfn := fun v => v % 4, partitions := [], strategy := .eq } [⟨0, 1⟩] = [] :=
  ⟨(closed_explicit_empty_absorbing _ rfl rfl).1 .eq { values := [1], use_or := false },
   (closed_explicit_empty_absorbing _ rfl rfl).2 [⟨0, 1⟩]⟩

/-- C10: if the first equality clause added to a closed-dimension
accumulator carries an empty value list (an empty array literal, or one
whose elements are all NULL and so are dropped during value extraction),
the accumulator adopts the empty partition list with the equality
strategy — the same state as the explicit contradiction of C3 — reports
"restriction added", and the whole query then yields zero candidate
chunks. -/
theorem closed_add_empty_array_adopts_empty (dri : DimensionRestrictInfoClosed)
    (elems : List (Option Int)) (hnull : ∀ e ∈ elems, e = none)
    (hinv : dri.strategy = .invalid) :
    dimension_restrict_info_closed_add dri .eq
        (dimension_values_create_from_array elems false) =
      ({ dri with partitions := [], strategy := .eq }, true) ∧
    ∀ pre suf catalog chunks,
      hypertable_restrict_info_get_chunk_oids
        (pre ++ (.dclosed { dri with partitions := [], strategy := .eq }, catalog) :: suf)
        chunks = [] := by
  have hvals : (dimension_values_create_from_array elems false).values = [] := by
    simp only [dimension_values_create_from_array]
    exact List.filterMap_eq_nil_iff.mpr hnull
  constructor
  · unfold dimension_restrict_info_closed_add
    rw [hvals]
    simp [dimension_restrict_info_get_partitions, hinv]
  · intro pre suf catalog chunks
    exact go_append_empty pre _ suf [] chunks
      (closed_slices_of_explicit_empty _ rfl rfl catalog)

/-- C5 counterexample: the claim that the accumulated interval never widens
fails as stated.  After `time <= 100` the upper bound is 100; a subsequent
equality clause `time = 200` overwrites the bounds unconditionally, raising
the upper bound to 200 — the upper bound increased across successive add
calls. -/
theorem open_add_seq_widens_cex :
    (dimension_restrict_info_open_add dimension_restrict_info_open_create .le
        { values := [100], use_or := false }).1.upper_strategy ≠ .invalid ∧
    (dimension_restrict_info_open_add dimension_restrict_info_open_create .le
        { values := [100], use_or := false }).1.upper_bound = 100 ∧
    (dimension_restrict_info_open_add
        (dimension_restrict_info_open_add dimension_restrict_info_open_create .le
          { values := [100], use_or := false }).1 .eq
        { values := [200], use_or := false }).1.upper_bound = 200 := by
  decide

/-- C5 (amended): across successive add calls whose strategies are not the
equality strategy, the accumulated interval never widens: a set upper
bound stays set and is non-increasing, a set lower bound stays set and is
non-decreasing.  (An equality clause overwrites both bounds
unconditionally and can widen the interval, as the counterexample
shows.) -/
theorem open_add_seq_no_widening (dri : DimensionRestrictInfoOpen)
    (calls : List (Strategy × DimensionValues))
    (hne : ∀ c ∈ calls, c.1 ≠ .eq) :
    openNotWider dri (dimension_restrict_info_open_add_seq dri calls) := by
  induction calls generalizing dri with
  | nil => exact openNotWider_refl _
  | cons c calls ih =>
      refine openNotWider_trans
        (open_add_notWider dri c.1 (hne c (List.mem_cons_self c calls)) c.2) ?_
      exact ih _ (fun d hd => hne d (List.mem_cons_of_mem c hd))

/-- C5 witness. -/
theorem open_add_seq_no_widening_witness :
    openNotWider { lower_bound := 0, lower_strategy := .ge
                 , upper_bound := 200, upper_strategy := .le }
      (dimension_restrict_info_open_add_seq
        { lower_bound := 0, lower_strategy := .ge
        , upper_bound := 200, upper_strategy := .le }
        [(.le, { values := [100], use_or := false }),
         (.gt, { values := [50], use_or := false })]) :=
  open_add_seq_no_widening _ _ (by decide)

/-- C7: for a closed dimension, the final candidate partition set (viewed
as a set of partition numbers) after ingesting equality clauses is the
same for every order in which those clauses are added to the accumulator
(and so is the accumulator's strategy). -/
theorem closed_partition_set_order_independent (h : Int → Int)
    (cls₁ cls₂ : List DimensionValues) (hperm : List.Perm cls₁ cls₂) :
    (dimension_restrict_info_closed_add_eq_seq h cls₁).strategy =
      (dimension_restrict_info_closed_add_eq_seq h cls₂).strategy ∧
    (dimension_restrict_info_closed_add_eq_seq h cls₁).partitions.toFinset =
      (dimension_restrict_info_closed_add_eq_seq h cls₂).partitions.toFinset := by
  cases cls₁ with
  | nil =>
      have h2 : cls₂ = [] := hperm.symm.eq_nil
      subst h2
      exact ⟨rfl, rfl⟩
  | cons dv₁ cls₁ =>
      cases cls₂ with
      | nil => exact absurd hperm.eq_nil (by simp)
      | cons dv₂ cls₂ =>
          obtain ⟨s1, m1⟩ := closed_add_eq_seq_char h dv₁ cls₁
          obtain ⟨s2, m2⟩ := closed_add_eq_seq_char h dv₂ cls₂
          refine ⟨s1.trans s2.symm, ?_⟩
          ext p
          simp only [List.mem_toFinset]
          rw [m1 p, m2 p]
          constructor
          · intro hall d hd
            exact hall d (hperm.mem_iff.mpr hd)
          · intro hall d hd
            exact hall d (hperm.mem_iff.mp hd)

/-- C7 witness. -/
theorem closed_partition_set_order_independent_witness :
    (dimension_restrict_info_closed_add_eq_seq (fun v => v % 4)
        [{ values := [2, 3], use_or := true }, { values := [3], use_or := true }]).strategy =
      (dimension_restrict_info_closed_add_eq_seq (fun v => v % 4)
        [{ values := [3], use_or := true }, { values := [2, 3], use_or := true }]).strategy ∧
    (dimension_restrict_info_closed_add_eq_seq (fun v => v % 4)
        [{ values := [2, 3], use_or := true },
         { values := [3], use_or := true }]).partitions.toFinset =
      (dimension_restrict_info_closed_add_eq_seq (fun v => v % 4)
        [{ values := [3], use_or := true },
         { values := [2, 3], use_or := true }]).partitions.toFinset :=
  closed_partition_set_order_independent (fun v => v % 4) _ _
    (List.Perm.swap ({ values := [3], use_or := true } : DimensionValues)
      ({ values := [2, 3], use_or := true } : DimensionValues) [])

/-- C10 witness. -/
theorem closed_add_empty_array_adopts_empty_witness :
    dimension_restrict_info_closed_add
        { hashfn := fun v => v % 4, partitions := [], strategy := .invalid } .eq
        (dimension_values_create_from_array [none, none] false) =
      ({ hashfn := fun v => v % 4, partitions := [], strategy := .eq }, true) ∧
    hypertable_restrict_info_get_chunk_oids
      ([] ++ (.dclosed { hashfn := fun v => v % 4, partitions := [], strategy := .eq },
        [⟨0, 1⟩]) :: []) [⟨1, [⟨0, 1⟩]⟩] = [] :=
  ⟨(closed_add_empty_array_adopts_empty
      { hashfn := fun v => v % 4, partitions := [], strategy := .invalid }
      [none, none] (by decide) rfl).1,
   (closed_add_empty_array_adopts_empty
      { hashfn := fun v => v % 4, partitions := [], strategy := .invalid }
      [none, none] (by decide) rfl).2 [] [] [⟨0, 1⟩] [⟨1, [⟨0, 1⟩]⟩]⟩

/-- C1 counterexample: pruning can exclude a chunk that genuinely contains
a row satisfying every clause.  One hash dimension (identity partitioning
function), one conjunctive equality clause with an empty value list (as
produced for `col = ALL('{}')`, which every row satisfies): the chunk
`[0,1)` holding the row with value 0 satisfies every hypothesis of the
claim, yet `hypertable_restrict_info_get_chunk_oids` prunes every chunk. -/
theorem resolve_candidate_chunks_excludes_matching_chunk_cex :
    ((⟨42, [⟨0, 1⟩]⟩ : Chunk) ∈ [(⟨42, [⟨0, 1⟩]⟩ : Chunk)]) ∧
    (Chunk.slices ⟨42, [⟨0, 1⟩]⟩ =
      List.map (fun d => d.chunkSlice)
        [({ kind := .kclosed (fun v => v)
          , clauses := [{ strategy := .eq
                        , dimvals := { values := [], use_or := false } }]
          , catalog := [⟨0, 1⟩], chunkSlice := ⟨0, 1⟩, rowVal := 0 } : DimSetup)]) ∧
    (∀ d ∈ [({ kind := .kclosed (fun v => v)
             , clauses := [{ strategy := .eq
                           , dimvals := { values := [], use_or := false } }]
             , catalog := [⟨0, 1⟩], chunkSlice := ⟨0, 1⟩, rowVal := 0 } : DimSetup)],
       d.chunkSlice ∈ d.catalog ∧ sliceContains d.kind d.chunkSlice d.rowVal ∧
       ∀ c ∈ d.clauses, clauseHolds c d.rowVal) ∧
    (42 : Int) ∉ hypertable_restrict_info_get_chunk_oids
      (List.map DimSetup.pair
        [({ kind := .kclosed (fun v => v)
          , clauses := [{ strategy := .eq
                        , dimvals := { values := [], use_or := false } }]
          , catalog := [⟨0, 1⟩], chunkSlice := ⟨0, 1⟩, rowVal := 0 } : DimSetup)])
      [(⟨42, [⟨0, 1⟩]⟩ : Chunk)] := by
  decide

/-- C1 (amended): soundness of chunk pruning.  For every dimension
configuration (any mix of open and closed dimensions, any partitioning
functions), every set of classified clauses, every persisted slice
catalog and every chunk universe: if a chunk's per-dimension slices are
persisted, and some row lies in the chunk and satisfies every clause,
then the chunk's oid is returned — provided every conjunctive equality
clause on a closed dimension carries at least one value (without this
proviso the claim fails, see the counterexample: an empty conjunctive
value list poisons the closed accumulator).  Pruning may over-include but
never excludes a matching chunk. -/
theorem resolve_candidate_chunks_sound (setup : List DimSetup) (ch : Chunk)
    (chunks : List Chunk)
    (hch : ch ∈ chunks)
    (hsl : ch.slices = setup.map (fun d => d.chunkSlice))
    (hcat : ∀ d ∈ setup, d.chunkSlice ∈ d.catalog)
    (hcontain : ∀ d ∈ setup, sliceContains d.kind d.chunkSlice d.rowVal)
    (hclauses : ∀ d ∈ setup, ∀ c ∈ d.clauses, clauseHolds c d.rowVal)
    (hguard : ∀ d ∈ setup, ∀ c ∈ d.clauses, closedValuesGuard d.kind c) :
    ch.oid ∈ hypertable_restrict_info_get_chunk_oids (setup.map DimSetup.pair) chunks := by
  have hdim : ∀ d ∈ setup, d.chunkSlice ∈
      dimension_restrict_info_slices (ingestClauses d.kind d.clauses) d.catalog :=
    fun d hd => dimension_sound d (hcat d hd) (hcontain d hd) (hclauses d hd) (hguard d hd)
  have hne : ∀ pr ∈ setup.map DimSetup.pair,
      dimension_restrict_info_slices pr.1 pr.2 ≠ [] := by
    intro pr hpr
    obtain ⟨d, hd, rfl⟩ := List.mem_map.mp hpr
    simp only [DimSetup.pair]
    intro hemp
    have hmem := hdim d hd
    rw [hemp] at hmem
    cases hmem
  unfold hypertable_restrict_info_get_chunk_oids
  rw [go_total _ hne [] chunks]
  unfold chunk_find_all_oids
  refine List.mem_map.mpr ⟨ch, ?_, rfl⟩
  rw [List.mem_filter]
  refine ⟨hch, ?_⟩
  rw [hsl, List.nil_append, List.map_map]
  exact chunk_matches_of_forall
    (fun d => dimension_restrict_info_slices (ingestClauses d.kind d.clauses) d.catalog)
    setup hdim

/-- C1 witness: a two-dimensional hypertable (one open time dimension with
clauses `time >= 100` and `time < 200`, one hash dimension with modulus 4
and clause `device IN (2, 6)`), a row (150, 6) and its chunk: the chunk's
oid survives pruning. -/
theorem resolve_candidate_chunks_sound_witness :
    (7 : Int) ∈ hypertable_restrict_info_get_chunk_oids
      (List.map DimSetup.pair
        [({ kind := .kopen
          , clauses := [{ strategy := .ge
                        , dimvals := { values := [100], use_or := false } },
                        { strategy := .lt
                        , dimvals := { values := [200], use_or := false } }]
          , catalog := [⟨0, 100⟩, ⟨100, 200⟩], chunkSlice := ⟨100, 200⟩
          , rowVal := 150 } : DimSetup),
         ({ kind := .kclosed (fun v => v % 4)
          , clauses := [{ strategy := .eq
                        , dimvals := { values := [2, 6], use_or := true } }]
          , catalog := [⟨0, 1⟩, ⟨2, 3⟩], chunkSlice := ⟨2, 3⟩
          , rowVal := 6 } : DimSetup)])
      [(⟨7, [⟨100, 200⟩, ⟨2, 3⟩]⟩ : Chunk)] :=
  resolve_candidate_chunks_sound _ (⟨7, [⟨100, 200⟩, ⟨2, 3⟩]⟩ : Chunk) _
    (by decide) (by decide) (by decide) (by decide) (by decide) (by decide)
